import Mathlib

/-!
Verification of the query-string module of the `gotham` repository
(`src/http/query_string.rs`): the splitter producing a multi-valued
mapping from decoded keys to decoded values, and the typed extraction
protocol (`FromQueryString`) with its optional, repeated and scalar
implementations.

Strings are embedded as `List Char`; Rust's `str::split(sep)` for a
one-character separator is embedded as `rustSplit` below.  The
percent-decoding collaborator (`form_url_decode`, defined elsewhere in
the repository's `http` module) is abstracted as an arbitrary function
`decode : Str → Except Unit Str`; theorems quantify over it.
-/

set_option autoImplicit false

namespace Gotham

/-- A raw or decoded string: Rust `&str` / `String` as a list of chars. -/
abbrev Str := List Char

/-- Auxiliary for `rustSplit`: accumulates the current segment (reversed). -/
def rustSplitAux (sep : Char) : Str → Str → List Str
  | [], acc => [acc.reverse]
  | c :: cs, acc =>
      if c = sep then acc.reverse :: rustSplitAux sep cs []
      else rustSplitAux sep cs (c :: acc)

/-- Rust `s.split(sep)` for a one-character separator: the segments of `s`
between occurrences of `sep`.  `rustSplit sep "" = [""]`,
`rustSplit '&' "a&&b" = ["a", "", "b"]`. -/
def rustSplit (sep : Char) (s : Str) : List Str :=
  rustSplitAux sep s []

/-- A single percent-decoded value from one `key=value` pair
(`FormUrlDecoded` in `http`; its only observable is `val()`). -/
structure FormUrlDecoded where
  val : Str
deriving DecidableEq, Repr

/-- Modelled from the spec: the percent-decoding constructor
`FormUrlDecoded::new(raw) -> Option<FormUrlDecoded>` (defined in the
repository's `http` module, outside `src/`) yields `none` when decoding of
the value fails, and wraps the decoded string on success.  The decoding
function itself stays abstract (`decode`). -/
def FormUrlDecoded.new (decode : Str → Except Unit Str) (raw : Str) :
    Option FormUrlDecoded :=
  match decode raw with
  | .ok v => some ⟨v⟩
  | .error _ => none

/-- The mapping of decoded keys to their ordered decoded values
(`QueryStringMapping`).  Rust stores a `HashMap<String, Vec<FormUrlDecoded>>`;
the claims observe it only through `get` and `contains_key`, so it is
embedded as an association list with unique keys. -/
structure QueryStringMapping where
  data : List (Str × List FormUrlDecoded)
deriving DecidableEq, Repr

/-- Lookup in the underlying association list (`HashMap::get`). -/
def lookupKey (key : Str) : List (Str × List FormUrlDecoded) →
    Option (List FormUrlDecoded)
  | [] => none
  | (k, vs) :: rest => if k = key then some vs else lookupKey key rest

/-- `QueryStringMapping::get`. -/
def QueryStringMapping.get (m : QueryStringMapping) (key : Str) :
    Option (List FormUrlDecoded) :=
  lookupKey key m.data

/-- `QueryStringMapping::contains_key`. -/
def QueryStringMapping.containsKey (m : QueryStringMapping) (key : Str) : Bool :=
  (lookupKey key m.data).isSome

/-- `HashMap::insert` on the association-list embedding: replaces the value
of an existing key, otherwise appends the new entry. -/
def insertKey (key : Str) (vs : List FormUrlDecoded) :
    List (Str × List FormUrlDecoded) → List (Str × List FormUrlDecoded)
  | [] => [(key, vs)]
  | (k, vs') :: rest =>
      if k = key then (k, vs) :: rest else (k, vs') :: insertKey key vs rest

/-- `acc.entry(k).or_insert(Vec::new())` followed by `vec.push(dv)` when
`v = some dv` (the `Some` arm of the match on `FormUrlDecoded::new`) and by
nothing when `v = none` (the `None` arm): the entry for `key` is created
with an empty vector if missing, and the decoded value, if any, is appended
to it. -/
def pushValue (key : Str) (v : Option FormUrlDecoded) :
    List (Str × List FormUrlDecoded) → List (Str × List FormUrlDecoded)
  | [] =>
      [(key, match v with
             | some dv => [dv]
             | none => [])]
  | (k, vs) :: rest =>
      if k = key then
        (k, match v with
            | some dv => vs ++ [dv]
            | none => vs) :: rest
      else (k, vs) :: pushValue key v rest

/-- `QueryStringMapping::add_unmapped_segment`: decode the key; on success
insert it with an empty vector (unconditionally, `HashMap::insert`), on
failure do nothing. -/
def QueryStringMapping.add_unmapped_segment (decode : Str → Except Unit Str)
    (m : QueryStringMapping) (key : Str) : QueryStringMapping :=
  match decode key with
  | .ok k => ⟨insertKey k [] m.data⟩
  | .error _ => m

/-- The two `sp.next().unwrap()` calls of `split`: the first two segments of
`p.split("=")`.  `none` models the panic of `unwrap` when a segment is
missing (proved unreachable for retained pairs). -/
def splitPair (p : Str) : Option (Str × Str) :=
  match rustSplit '=' p with
  | k :: v :: _ => some (k, v)
  | _ => none

/-- The body of the `fold` in `split`, for one candidate pair `p`:
split off the raw key and raw value, decode the key (`form_url_decode`);
on success create/extend its entry, pushing the value when
`FormUrlDecoded::new` succeeds; on key-decode failure leave the
accumulator unchanged. -/
def splitStep (decode : Str → Except Unit Str)
    (acc : List (Str × List FormUrlDecoded)) (p : Str) :
    List (Str × List FormUrlDecoded) :=
  match splitPair p with
  | some (kraw, vraw) =>
      match decode kraw with
      | .ok k => pushValue k (FormUrlDecoded.new decode vraw) acc
      | .error _ => acc
  | none => acc

/-- The pipeline of `split` after the `&`-partition: keep the candidate
pairs containing `=` and fold them into the map. -/
def splitPairs (decode : Str → Except Unit Str) (pairs : List Str) :
    QueryStringMapping :=
  ⟨(pairs.filter (fun p => decide ('=' ∈ p))).foldl (splitStep decode) []⟩

/-- `split`: `None` yields the empty mapping; `Some query` partitions on
`&`, filters the pairs containing `=`, and folds them into the mapping. -/
def split (decode : Str → Except Unit Str) (query : Option Str) :
    QueryStringMapping :=
  match query with
  | some q => splitPairs decode (rustSplit '&' q)
  | none => ⟨[]⟩

/-- A decode function for concrete instantiations: never fails, returns the
input unchanged. -/
def okDecode : Str → Except Unit Str := fun s => .ok s

/-- A decode function for concrete instantiations: fails exactly on strings
containing `%` (standing for an invalid percent escape). -/
def pctFailDecode : Str → Except Unit Str :=
  fun s => if '%' ∈ s then .error () else .ok s

/-- `FromQueryStringError`: the uniform conversion error, a bare
human-readable description. -/
structure FromQueryStringError where
  description : Str
deriving DecidableEq, Repr

/-- The body generated by the `fstr!` macro for each scalar leaf type,
parameterized by that type's `from_str` parser (which reports its error as
a description string, Rust's `err.description()`): exactly one value is
required (`values.len() == 1`, in which case `values = [v]` and
`values[0] = v`); its text is parsed, a parse error being converted into a
`FromQueryStringError` carrying the parser's description; any other arity
is the "Invalid number of values" error. -/
def scalarFromQueryString {α : Type} (parse : Str → Except Str α)
    (_key : Str) (values : List FormUrlDecoded) :
    Except FromQueryStringError α :=
  match values with
  | [v] =>
      match parse v.val with
      | .ok x => .ok x
      | .error e => .error ⟨e⟩
  | _ => .error ⟨"Invalid number of values".data⟩

/-- `impl FromQueryString for Option<T>`, parameterized by `T`'s
`from_query_string`: an empty value sequence is `Ok(None)`; otherwise the
whole sequence is delegated to `T`, successes wrapped in `Some`, errors
returned unchanged. -/
def optionFromQueryString {α : Type}
    (tconv : Str → List FormUrlDecoded → Except FromQueryStringError α)
    (key : Str) (values : List FormUrlDecoded) :
    Except FromQueryStringError (Option α) :=
  if values.length = 0 then .ok none
  else
    match tconv key values with
    | .ok v => .ok (some v)
    | .error v => .error v

/-- Rust `values.windows(1)`: the length-1 windows of a slice, i.e. each
element as a one-element slice, in order (and no windows for an empty
slice). -/
def windows1 {α : Type} : List α → List (List α)
  | [] => []
  | x :: xs => [x] :: windows1 xs

/-- Rust `collect::<Result<Vec<_>, _>>()`: collects the successes in order,
stopping at the first error. -/
def collectResults {ε α : Type} : List (Except ε α) → Except ε (List α)
  | [] => .ok []
  | .error e :: _ => .error e
  | .ok x :: rest =>
      match collectResults rest with
      | .ok xs => .ok (x :: xs)
      | .error e => .error e

/-- `impl FromQueryString for Vec<T>`, parameterized by `T`'s
`from_query_string`: maps `T`'s conversion over `values.windows(1)` and
collects the results. -/
def vecFromQueryString {α : Type}
    (tconv : Str → List FormUrlDecoded → Except FromQueryStringError α)
    (key : Str) (values : List FormUrlDecoded) :
    Except FromQueryStringError (List α) :=
  collectResults ((windows1 values).map (fun value => tconv key value))

/-- Rust `bool::from_str` (`FromStr for bool`): accepts exactly `"true"`
and `"false"`; on anything else its `ParseBoolError` description is the
std text used below. -/
def parseBool (s : Str) : Except Str Bool :=
  if s = "true".data then .ok true
  else if s = "false".data then .ok false
  else .error "provided string was not `true` or `false`".data

/-- Reference function for the order/uniqueness claims: the decoded key a
candidate pair `p` produces, when its key segment exists and decodes. -/
def pairKey (decode : Str → Except Unit Str) (p : Str) : Option Str :=
  match splitPair p with
  | some (kraw, _) => (decode kraw).toOption
  | none => none

/-- Reference function for the order claim: the decoded values a candidate
pair `p` contributes to the sequence of the decoded key `k` (one value when
the pair's key decodes to `k` and its value decodes, none otherwise). -/
def pairContribution (decode : Str → Except Unit Str) (k : Str) (p : Str) :
    List FormUrlDecoded :=
  match splitPair p with
  | some (kraw, vraw) =>
      match decode kraw with
      | .ok k' =>
          if k' = k then (FormUrlDecoded.new decode vraw).toList else []
      | .error _ => []
  | none => []

/-- `splitStep` with the two `unwrap` calls modelled as a potential panic:
`none` is the panic outcome, propagated through the fold. -/
def splitStepOpt (decode : Str → Except Unit Str)
    (acc : Option (List (Str × List FormUrlDecoded))) (p : Str) :
    Option (List (Str × List FormUrlDecoded)) :=
  match acc with
  | none => none
  | some acc =>
      match splitPair p with
      | none => none
      | some (kraw, vraw) =>
          match decode kraw with
          | .ok k => some (pushValue k (FormUrlDecoded.new decode vraw) acc)
          | .error _ => some acc

/-- `split` with panics made observable: `none` means some retained pair
made an `unwrap` panic. -/
def splitOpt (decode : Str → Except Unit Str) (query : Option Str) :
    Option QueryStringMapping :=
  match query with
  | some q =>
      (((rustSplit '&' q).filter (fun p => decide ('=' ∈ p))).foldl
          (splitStepOpt decode) (some [])).map (fun d => ⟨d⟩)
  | none => some ⟨[]⟩

/-- The `fstr!` body in its literal Rust shape — `values.len() == 1` guard,
then index `values[0]` — with an out-of-bounds index modelled as a
potential panic (`none`). -/
def scalarFromQueryStringOpt {α : Type} (parse : Str → Except Str α)
    (_key : Str) (values : List FormUrlDecoded) :
    Option (Except FromQueryStringError α) :=
  if values.length = 1 then
    match values[0]? with
    | none => none
    | some v =>
        some (match parse v.val with
              | .ok x => .ok x
              | .error e => .error ⟨e⟩)
  else some (.error ⟨"Invalid number of values".data⟩)

/-- Reference function: concatenation, in source order, of the values the
candidate pairs contribute to the key `k`. -/
def contributions (decode : Str → Except Unit Str) (k : Str) :
    List Str → List FormUrlDecoded
  | [] => []
  | p :: rest => pairContribution decode k p ++ contributions decode k rest

/-- Whether a candidate pair produces the decoded key `k`. -/
def producesKey (decode : Str → Except Unit Str) (k : Str) (p : Str) : Bool :=
  decide (pairKey decode p = some k)

end Gotham

namespace Gotham

theorem lookupKey_pushValue_self (k : Str) (v : Option FormUrlDecoded)
    (l : List (Str × List FormUrlDecoded)) :
    lookupKey k (pushValue k v l) =
      some ((lookupKey k l).getD [] ++ v.toList) := by
  induction l with
  | nil => cases v <;> simp [pushValue, lookupKey]
  | cons hd tl ih =>
      obtain ⟨k0, vs⟩ := hd
      by_cases h : k0 = k
      · subst h; cases v <;> simp [pushValue, lookupKey]
      · simp [pushValue, lookupKey, h, ih]

theorem lookupKey_pushValue_ne (k q : Str) (hne : q ≠ k)
    (v : Option FormUrlDecoded) (l : List (Str × List FormUrlDecoded)) :
    lookupKey q (pushValue k v l) = lookupKey q l := by
  induction l with
  | nil => simp [pushValue, lookupKey, Ne.symm hne]
  | cons hd tl ih =>
      obtain ⟨k0, vs⟩ := hd
      by_cases h : k0 = k
      · subst h; simp [pushValue, lookupKey, Ne.symm hne]
      · by_cases hq : k0 = q <;> simp [pushValue, lookupKey, h, hq, hne, ih]

theorem keys_pushValue (k : Str) (v : Option FormUrlDecoded)
    (l : List (Str × List FormUrlDecoded)) :
    (pushValue k v l).map Prod.fst =
      if k ∈ l.map Prod.fst then l.map Prod.fst
      else l.map Prod.fst ++ [k] := by
  induction l with
  | nil => cases v <;> simp [pushValue]
  | cons hd tl ih =>
      obtain ⟨k0, vs⟩ := hd
      by_cases h : k0 = k
      · subst h; cases v <;> simp [pushValue]
      · by_cases hm : k ∈ tl.map Prod.fst <;>
          simp [pushValue, h, ih, hm, Ne.symm h]

theorem nodup_keys_pushValue (k : Str) (v : Option FormUrlDecoded)
    (l : List (Str × List FormUrlDecoded))
    (h : (l.map Prod.fst).Nodup) :
    ((pushValue k v l).map Prod.fst).Nodup := by
  rw [keys_pushValue]
  by_cases hm : k ∈ l.map Prod.fst
  · simpa [hm] using h
  · simp [hm, List.nodup_append, h]

theorem lookupKey_insertKey_self (k : Str) (vs : List FormUrlDecoded)
    (l : List (Str × List FormUrlDecoded)) :
    lookupKey k (insertKey k vs l) = some vs := by
  induction l with
  | nil => simp [insertKey, lookupKey]
  | cons hd tl ih =>
      obtain ⟨k0, vs0⟩ := hd
      by_cases h : k0 = k
      · subst h; simp [insertKey, lookupKey]
      · simp [insertKey, lookupKey, h, ih]

theorem lookupKey_insertKey_ne (k q : Str) (hne : q ≠ k)
    (vs : List FormUrlDecoded) (l : List (Str × List FormUrlDecoded)) :
    lookupKey q (insertKey k vs l) = lookupKey q l := by
  induction l with
  | nil => simp [insertKey, lookupKey, Ne.symm hne]
  | cons hd tl ih =>
      obtain ⟨k0, vs0⟩ := hd
      by_cases h : k0 = k
      · subst h; simp [insertKey, lookupKey, Ne.symm hne]
      · by_cases hq : k0 = q <;> simp [insertKey, lookupKey, h, hq, hne, ih]

theorem one_le_length_rustSplitAux (c : Char) (p acc : Str) :
    1 ≤ (rustSplitAux c p acc).length := by
  induction p generalizing acc with
  | nil => simp [rustSplitAux]
  | cons x xs ih =>
      by_cases hx : x = c
      · simp [rustSplitAux, hx]
      · simpa [rustSplitAux, hx] using ih (x :: acc)

theorem two_le_length_rustSplitAux_of_mem (c : Char) (p acc : Str)
    (h : c ∈ p) : 2 ≤ (rustSplitAux c p acc).length := by
  induction p generalizing acc with
  | nil => simp at h
  | cons x xs ih =>
      by_cases hx : x = c
      · subst hx
        simpa [rustSplitAux] using one_le_length_rustSplitAux x xs []
      · have hxs : c ∈ xs := by
          cases h with
          | head => exact absurd rfl hx
          | tail _ hm => exact hm
        simpa [rustSplitAux, hx] using ih (x :: acc) hxs

theorem splitPair_isSome_of_mem (p : Str) (h : '=' ∈ p) :
    (splitPair p).isSome := by
  have h2 := two_le_length_rustSplitAux_of_mem '=' p [] h
  unfold splitPair rustSplit
  rcases hm : rustSplitAux '=' p [] with _ | ⟨a, _ | ⟨b, rest⟩⟩ <;>
    rw [hm] at h2 <;> simp_all

theorem rustSplitAux_of_not_mem (c : Char) (a acc : Str) (h : c ∉ a) :
    rustSplitAux c a acc = [acc.reverse ++ a] := by
  induction a generalizing acc with
  | nil => simp [rustSplitAux]
  | cons x xs ih =>
      have hx : x ≠ c := fun hxc => h (hxc ▸ List.mem_cons_self x xs)
      have hxs : c ∉ xs := fun hm => h (List.mem_cons_of_mem x hm)
      simp [rustSplitAux, hx, ih (x :: acc) hxs]

theorem rustSplitAux_append_sep (c : Char) (a b acc : Str) (h : c ∉ a) :
    rustSplitAux c (a ++ c :: b) acc =
      (acc.reverse ++ a) :: rustSplit c b := by
  induction a generalizing acc with
  | nil => simp [rustSplitAux, rustSplit]
  | cons x xs ih =>
      have hx : x ≠ c := fun hxc => h (hxc ▸ List.mem_cons_self x xs)
      have hxs : c ∉ xs := fun hm => h (List.mem_cons_of_mem x hm)
      simp [rustSplitAux, hx, ih (x :: acc) hxs]

theorem rustSplitAux_all_sep (c : Char) (s : Str) (h : ∀ x ∈ s, x = c) :
    ∀ t ∈ rustSplitAux c s [], t = [] := by
  induction s with
  | nil => simp [rustSplitAux]
  | cons x xs ih =>
      have hx : x = c := h x (List.mem_cons_self x xs)
      subst hx
      intro t ht
      rw [rustSplitAux] at ht
      simp only [if_pos rfl, List.reverse_nil] at ht
      cases ht with
      | head => rfl
      | tail _ hm => exact ih (fun y hy => h y (List.mem_cons_of_mem x hy)) t hm

theorem lookupKey_foldl_splitStep (decode : Str → Except Unit Str)
    (pairs : List Str) :
    ∀ (acc : List (Str × List FormUrlDecoded)) (k : Str),
    lookupKey k (pairs.foldl (splitStep decode) acc) =
      match lookupKey k acc with
      | some vs => some (vs ++ contributions decode k pairs)
      | none =>
          if pairs.any (producesKey decode k) then
            some (contributions decode k pairs)
          else none := by
  induction pairs with
  | nil =>
      intro acc k
      rw [List.foldl_nil]
      cases h : lookupKey k acc <;> simp [contributions, h]
  | cons p rest ih =>
      intro acc k
      rw [List.foldl_cons]
      rcases hsp : splitPair p with _ | ⟨kraw, vraw⟩
      · have hstep : splitStep decode acc p = acc := by simp [splitStep, hsp]
        have hc : pairContribution decode k p = [] := by
          simp [pairContribution, hsp]
        have hpk : producesKey decode k p = false := by
          simp [producesKey, pairKey, hsp]
        rw [hstep, ih]
        cases lookupKey k acc <;> simp [contributions, hc, hpk]
      · cases hd : decode kraw with
        | error e =>
            have hstep : splitStep decode acc p = acc := by
              simp [splitStep, hsp, hd]
            have hc : pairContribution decode k p = [] := by
              simp [pairContribution, hsp, hd]
            have hpk : producesKey decode k p = false := by
              simp [producesKey, pairKey, hsp, hd, Except.toOption]
            rw [hstep, ih]
            cases lookupKey k acc <;> simp [contributions, hc, hpk]
        | ok k' =>
            have hstep : splitStep decode acc p =
                pushValue k' (FormUrlDecoded.new decode vraw) acc := by
              simp [splitStep, hsp, hd]
            by_cases hk : k' = k
            · subst hk
              have hc : pairContribution decode k' p =
                  (FormUrlDecoded.new decode vraw).toList := by
                simp [pairContribution, hsp, hd]
              have hpk : producesKey decode k' p = true := by
                simp [producesKey, pairKey, hsp, hd, Except.toOption]
              rw [hstep, ih, lookupKey_pushValue_self]
              cases hacc : lookupKey k' acc <;>
                simp [contributions, hc, hpk, hacc]
            · have hc : pairContribution decode k p = [] := by
                simp [pairContribution, hsp, hd, hk]
              have hpk : producesKey decode k p = false := by
                simp [producesKey, pairKey, hsp, hd, hk, Except.toOption]
              rw [hstep, ih,
                lookupKey_pushValue_ne k' k (Ne.symm hk)]
              cases lookupKey k acc <;> simp [contributions, hc, hpk]

theorem nodup_keys_foldl_splitStep (decode : Str → Except Unit Str)
    (pairs : List Str) :
    ∀ (acc : List (Str × List FormUrlDecoded)),
    ((acc.map Prod.fst).Nodup) →
    (((pairs.foldl (splitStep decode) acc).map Prod.fst).Nodup) := by
  induction pairs with
  | nil => intro acc h; simpa using h
  | cons p rest ih =>
      intro acc h
      rw [List.foldl_cons]
      apply ih
      rcases hsp : splitPair p with _ | ⟨kraw, vraw⟩
      · simpa [splitStep, hsp] using h
      · cases hd : decode kraw with
        | error e => simpa [splitStep, hsp, hd] using h
        | ok k' =>
            rw [show splitStep decode acc p =
                pushValue k' (FormUrlDecoded.new decode vraw) acc from by
              simp [splitStep, hsp, hd]]
            exact nodup_keys_pushValue k' _ acc h

/-- C1, counterexample: the claim says that for the pair `a=b=c` the raw
value is `b=c` (everything after the first `=`); with the identity decode
function the code instead stores `b` — the third `sp.next()` segment is
never read, so text after the second `=` is dropped. -/
theorem split_multi_eq_counterexample :
    (split okDecode (some "a=b=c".data)).get "a".data =
      some [⟨"b".data⟩] ∧
    (split okDecode (some "a=b=c".data)).get "a".data ≠
      some [⟨"b=c".data⟩] := by
  constructor
  · decide
  · decide

/-- C1, amended: a retained pair is split on its `=` occurrences and only
the first two segments are consumed: the raw key is the text before the
first `=` and the raw value is the text strictly between the first and the
second `=` (to the end of the pair when there is no second `=`); any text
after a second `=` is dropped. -/
theorem splitPair_first_two_segments (k v rest : Str)
    (hk : '=' ∉ k) (hv : '=' ∉ v)
    (hrest : rest = [] ∨ ∃ r, rest = '=' :: r) :
    splitPair (k ++ '=' :: (v ++ rest)) = some (k, v) := by
  unfold splitPair rustSplit
  rw [rustSplitAux_append_sep '=' k (v ++ rest) [] hk]
  rcases hrest with rfl | ⟨r, rfl⟩
  · rw [List.append_nil,
      show rustSplit '=' v = [v] by
        simpa [rustSplit] using rustSplitAux_of_not_mem '=' v [] hv]
    simp
  · rw [show rustSplit '=' (v ++ '=' :: r) = v :: rustSplit '=' r by
      simpa [rustSplit] using rustSplitAux_append_sep '=' v r [] hv]
    simp

/-- C1, witness for the amended theorem at `a=b=c`. -/
theorem splitPair_first_two_segments_witness :
    splitPair ("a".data ++ '=' :: ("b".data ++ "=c".data)) =
      some ("a".data, "b".data) :=
  splitPair_first_two_segments "a".data "b".data "=c".data
    (by decide) (by decide) (Or.inr ⟨"c".data, by decide⟩)

/-- C2: for every scalar leaf type — i.e. for every underlying `from_str`
parser — and every key, a value sequence whose length is not exactly one
converts to the "Invalid number of values" error; a one-element sequence
converts to an error carrying the parser's own description when the text
does not parse, and to `Ok` of the parsed value when it does. -/
theorem scalarFromQueryString_arity {α : Type} (parse : Str → Except Str α)
    (key : Str) (values : List FormUrlDecoded) :
    (values.length ≠ 1 →
      scalarFromQueryString parse key values =
        .error ⟨"Invalid number of values".data⟩) ∧
    (∀ v, values = [v] →
      (∀ e, parse v.val = .error e →
        scalarFromQueryString parse key values = .error ⟨e⟩) ∧
      (∀ x, parse v.val = .ok x →
        scalarFromQueryString parse key values = .ok x)) := by
  constructor
  · intro hlen
    match values, hlen with
    | [], _ => rfl
    | v₁ :: v₂ :: rest, _ => rfl
    | [v], h => exact absurd rfl h
  · rintro v rfl
    constructor
    · intro e he; simp [scalarFromQueryString, he]
    · intro x hx; simp [scalarFromQueryString, hx]

/-- C2, witness: the Rust `bool` parser at arity 0, at a one-element
unparseable text, and at a one-element valid text. -/
theorem scalarFromQueryString_arity_witness :
    scalarFromQueryString parseBool "k".data [] =
      .error ⟨"Invalid number of values".data⟩ ∧
    scalarFromQueryString parseBool "k".data [⟨"zzz".data⟩] =
      .error ⟨"provided string was not `true` or `false`".data⟩ ∧
    scalarFromQueryString parseBool "k".data [⟨"true".data⟩] = .ok true :=
  ⟨(scalarFromQueryString_arity parseBool "k".data []).1 (by decide),
   ((scalarFromQueryString_arity parseBool "k".data [⟨"zzz".data⟩]).2
      ⟨"zzz".data⟩ rfl).1 "provided string was not `true` or `false`".data
      rfl,
   ((scalarFromQueryString_arity parseBool "k".data [⟨"true".data⟩]).2
      ⟨"true".data⟩ rfl).2 true rfl⟩

/-- C6: the `Option<T>` implementation succeeds with `none` ("absent") on
an empty value sequence, for every wrapped conversion; on a non-empty
sequence it delegates to the wrapped conversion over the full sequence,
wrapping success in `some` and passing errors through unchanged. -/
theorem optionFromQueryString_composition {α : Type}
    (tconv : Str → List FormUrlDecoded → Except FromQueryStringError α)
    (key : Str) :
    optionFromQueryString tconv key [] = .ok none ∧
    (∀ values, values ≠ [] →
      (∀ v, tconv key values = .ok v →
        optionFromQueryString tconv key values = .ok (some v)) ∧
      (∀ e, tconv key values = .error e →
        optionFromQueryString tconv key values = .error e)) := by
  constructor
  · rfl
  · intro values hne
    have hlen : ¬ values.length = 0 := by simpa using hne
    constructor
    · intro v hv; simp [optionFromQueryString, hlen, hv]
    · intro e he; simp [optionFromQueryString, hlen, he]

/-- C6, witness: the optional wrapper over the `bool` scalar conversion at
the empty sequence, a valid one-element sequence, and an invalid one. -/
theorem optionFromQueryString_composition_witness :
    optionFromQueryString (scalarFromQueryString parseBool) "k".data [] =
      .ok none ∧
    optionFromQueryString (scalarFromQueryString parseBool) "k".data
      [⟨"true".data⟩] = .ok (some true) ∧
    optionFromQueryString (scalarFromQueryString parseBool) "k".data
      [⟨"zzz".data⟩] =
      .error ⟨"provided string was not `true` or `false`".data⟩ :=
  ⟨(optionFromQueryString_composition (scalarFromQueryString parseBool)
      "k".data).1,
   ((optionFromQueryString_composition (scalarFromQueryString parseBool)
      "k".data).2 [⟨"true".data⟩] (by decide)).1 true rfl,
   ((optionFromQueryString_composition (scalarFromQueryString parseBool)
      "k".data).2 [⟨"zzz".data⟩] (by decide)).2
      ⟨"provided string was not `true` or `false`".data⟩ rfl⟩

theorem vecFromQueryString_nil {α : Type}
    (tconv : Str → List FormUrlDecoded → Except FromQueryStringError α)
    (key : Str) : vecFromQueryString tconv key [] = .ok [] := rfl

theorem vecFromQueryString_cons {α : Type}
    (tconv : Str → List FormUrlDecoded → Except FromQueryStringError α)
    (key : Str) (v : FormUrlDecoded) (rest : List FormUrlDecoded) :
    vecFromQueryString tconv key (v :: rest) =
      match tconv key [v] with
      | .error e => .error e
      | .ok x =>
          match vecFromQueryString tconv key rest with
          | .ok xs => .ok (x :: xs)
          | .error e => .error e := by
  rw [show vecFromQueryString tconv key (v :: rest) =
      collectResults (tconv key [v] ::
        (windows1 rest).map (fun value => tconv key value)) from rfl]
  cases htv : tconv key [v] with
  | error e => rfl
  | ok x =>
      simp only [collectResults]
      rw [show vecFromQueryString tconv key rest =
          collectResults ((windows1 rest).map (fun value => tconv key value))
        from rfl]
      cases collectResults ((windows1 rest).map (fun value => tconv key value)) <;>
        rfl

/-- C5: the `Vec<T>` implementation converts each element of the value
sequence as a one-element sequence, in order, for every wrapped
conversion: it returns `Ok` iff every element converts, the successful
result being elementwise related to the input in order
(`List.Forall₂`), and on the first failing element it returns that
element's error. -/
theorem vecFromQueryString_composition {α : Type}
    (tconv : Str → List FormUrlDecoded → Except FromQueryStringError α)
    (key : Str) (values : List FormUrlDecoded) :
    ((∃ xs, vecFromQueryString tconv key values = .ok xs) ↔
      ∀ v ∈ values, ∃ x, tconv key [v] = .ok x) ∧
    (∀ xs, vecFromQueryString tconv key values = .ok xs →
      List.Forall₂ (fun v x => tconv key [v] = .ok x) values xs) ∧
    (∀ (l₁ : List FormUrlDecoded) (v : FormUrlDecoded)
        (l₂ : List FormUrlDecoded) (e : FromQueryStringError),
      values = l₁ ++ v :: l₂ →
      (∀ u ∈ l₁, ∃ x, tconv key [u] = .ok x) →
      tconv key [v] = .error e →
      vecFromQueryString tconv key values = .error e) := by
  refine ⟨?_, ?_, ?_⟩
  · induction values with
    | nil => simp [vecFromQueryString_nil]
    | cons v rest ih =>
        rw [vecFromQueryString_cons]
        cases hv : tconv key [v] with
        | error e =>
            simp only []
            constructor
            · rintro ⟨xs, hxs⟩; cases hxs
            · intro hall
              obtain ⟨x, hx⟩ := hall v (List.mem_cons_self v rest)
              rw [hv] at hx; cases hx
        | ok x =>
            cases hrest : vecFromQueryString tconv key rest with
            | error e =>
                simp only []
                constructor
                · rintro ⟨xs, hxs⟩; cases hxs
                · intro hall
                  have : ∀ u ∈ rest, ∃ y, tconv key [u] = .ok y :=
                    fun u hu => hall u (List.mem_cons_of_mem v hu)
                  obtain ⟨xs, hxs⟩ := ih.mpr this
                  rw [hrest] at hxs; cases hxs
            | ok xs =>
                simp only []
                constructor
                · intro _
                  intro u hu
                  cases hu with
                  | head => exact ⟨x, hv⟩
                  | tail _ hm =>
                      exact ih.mp ⟨xs, hrest⟩ u hm
                · intro _; exact ⟨x :: xs, rfl⟩
  · induction values with
    | nil =>
        intro xs hxs
        rw [vecFromQueryString_nil] at hxs
        cases hxs
        exact List.Forall₂.nil
    | cons v rest ih =>
        intro xs hxs
        rw [vecFromQueryString_cons] at hxs
        cases hv : tconv key [v] with
        | error e => rw [hv] at hxs; cases hxs
        | ok x =>
            rw [hv] at hxs
            cases hrest : vecFromQueryString tconv key rest with
            | error e => rw [hrest] at hxs; cases hxs
            | ok xs' =>
                rw [hrest] at hxs
                cases hxs
                exact List.Forall₂.cons hv (ih xs' hrest)
  · intro l₁ v l₂ e hvals hok he
    subst hvals
    induction l₁ with
    | nil =>
        rw [List.nil_append, vecFromQueryString_cons, he]
    | cons u l₁' ih =>
        obtain ⟨x, hx⟩ := hok u (List.mem_cons_self u l₁')
        rw [List.cons_append, vecFromQueryString_cons, hx,
          ih (fun w hw => hok w (List.mem_cons_of_mem u hw))]

/-- C5, witness: the repeated wrapper over the `bool` scalar conversion
succeeds elementwise on `[true, false]` and fails with the first failing
element's parse error on `[true, zzz]`. -/
theorem vecFromQueryString_composition_witness :
    vecFromQueryString (scalarFromQueryString parseBool) "k".data
      [⟨"true".data⟩, ⟨"zzz".data⟩] =
      .error ⟨"provided string was not `true` or `false`".data⟩ ∧
    List.Forall₂
      (fun (v : FormUrlDecoded) (x : Bool) =>
        scalarFromQueryString parseBool "k".data [v] = .ok x)
      [⟨"true".data⟩, ⟨"false".data⟩] [true, false] :=
  ⟨(vecFromQueryString_composition (scalarFromQueryString parseBool)
      "k".data [⟨"true".data⟩, ⟨"zzz".data⟩]).2.2
      [⟨"true".data⟩] ⟨"zzz".data⟩ []
      ⟨"provided string was not `true` or `false`".data⟩ rfl
      (by intro u hu
          rw [List.mem_singleton] at hu
          subst hu
          exact ⟨true, rfl⟩)
      rfl,
   (vecFromQueryString_composition (scalarFromQueryString parseBool)
      "k".data [⟨"true".data⟩, ⟨"false".data⟩]).2.1 [true, false] rfl⟩

/-- C3: decode failures inside `split` never become caller-visible errors.
If the raw key of a retained pair fails to decode, the fold step leaves
the accumulator untouched (the pair is discarded, no entry created).  If
the key decodes but the raw value fails construction, the step is exactly
`pushValue k none`: the decoded key's entry exists afterwards, holding
precisely its previously accumulated values, and every other key is
untouched — only the one value is dropped. -/
theorem splitStep_decode_failures_silent (decode : Str → Except Unit Str)
    (acc : List (Str × List FormUrlDecoded)) (p kraw vraw k : Str) :
    (splitPair p = some (kraw, vraw) → decode kraw = .error () →
      splitStep decode acc p = acc) ∧
    (splitPair p = some (kraw, vraw) → decode kraw = .ok k →
      FormUrlDecoded.new decode vraw = none →
      splitStep decode acc p = pushValue k none acc ∧
      lookupKey k (pushValue k none acc) =
        some ((lookupKey k acc).getD []) ∧
      (∀ q, q ≠ k →
        lookupKey q (pushValue k none acc) = lookupKey q acc)) := by
  constructor
  · intro hsp hd
    simp [splitStep, hsp, hd]
  · intro hsp hd hv
    refine ⟨by simp [splitStep, hsp, hd, hv], ?_, ?_⟩
    · simpa using lookupKey_pushValue_self k none acc
    · intro q hq
      exact lookupKey_pushValue_ne k q hq none acc

/-- C3, witness: with a decode function failing on `%`, the pair `%=1` is
discarded entirely, and for `a=%` only the value is dropped while the key
`a` keeps its previously accumulated value. -/
theorem splitStep_decode_failures_silent_witness :
    splitStep pctFailDecode [("a".data, [⟨"x".data⟩])] "%=1".data =
      [("a".data, [⟨"x".data⟩])] ∧
    splitStep pctFailDecode [("a".data, [⟨"x".data⟩])] "a=%".data =
      pushValue "a".data none [("a".data, [⟨"x".data⟩])] ∧
    lookupKey "a".data
      (pushValue "a".data none [("a".data, [⟨"x".data⟩])]) =
      some [⟨"x".data⟩] := by
  have h1 := splitStep_decode_failures_silent pctFailDecode
    [("a".data, [⟨"x".data⟩])] "%=1".data "%".data "1".data "a".data
  have h2 := splitStep_decode_failures_silent pctFailDecode
    [("a".data, [⟨"x".data⟩])] "a=%".data "a".data "%".data "a".data
  refine ⟨h1.1 rfl rfl, (h2.2 rfl rfl rfl).1, ?_⟩
  have h3 := (h2.2 rfl rfl rfl).2.1
  simpa using h3

/-- C4: for every decode function and query string, the mapping built by
`split` has pairwise-distinct keys, and the value sequence of each key `k`
is exactly the left-to-right concatenation of the contributions of the
retained candidate pairs that decode to `k` (present iff some retained
pair produces `k`): multiple occurrences of a key accumulate into the one
entry, in source order. -/
theorem split_unique_keys_and_order (decode : Str → Except Unit Str)
    (q k : Str) :
    (((split decode (some q)).data.map Prod.fst).Nodup) ∧
    (split decode (some q)).get k =
      (if ((rustSplit '&' q).filter (fun p => decide ('=' ∈ p))).any
          (producesKey decode k) then
        some (contributions decode k
          ((rustSplit '&' q).filter (fun p => decide ('=' ∈ p))))
      else none) := by
  constructor
  · exact nodup_keys_foldl_splitStep decode _ [] (by simp)
  · have h := lookupKey_foldl_splitStep decode
      ((rustSplit '&' q).filter (fun p => decide ('=' ∈ p))) [] k
    simpa [split, splitPairs, QueryStringMapping.get, lookupKey] using h

/-- C7: a candidate pair with no `=` separator is dropped from the fold
entirely — removing it from the candidate list does not change the
resulting mapping — and no error is raised; concretely,
`split(Some("flag&key=val"))` contains only the key `key`, with `flag`
appearing under no key. -/
theorem splitPairs_drops_pairs_without_separator
    (decode : Str → Except Unit Str) (l₁ l₂ : List Str) (p : Str)
    (h : '=' ∉ p) :
    splitPairs decode (l₁ ++ p :: l₂) = splitPairs decode (l₁ ++ l₂) ∧
    (split okDecode (some "flag&key=val".data)).data =
      [("key".data, [⟨"val".data⟩])] := by
  constructor
  · have hfilter : (l₁ ++ p :: l₂).filter (fun p => decide ('=' ∈ p)) =
        (l₁ ++ l₂).filter (fun p => decide ('=' ∈ p)) := by
      rw [List.filter_append, List.filter_append, List.filter_cons]
      simp [h]
    unfold splitPairs
    rw [hfilter]
  · decide

/-- C7, witness: dropping the separator-less pair `flag` between two
well-formed pairs leaves the mapping unchanged. -/
theorem splitPairs_drops_pairs_without_separator_witness :
    splitPairs okDecode (["a=1".data] ++ "flag".data :: ["b=2".data]) =
      splitPairs okDecode (["a=1".data] ++ ["b=2".data]) ∧
    (split okDecode (some "flag&key=val".data)).data =
      [("key".data, [⟨"val".data⟩])] :=
  splitPairs_drops_pairs_without_separator okDecode
    ["a=1".data] ["b=2".data] "flag".data (by decide)

/-- C8: `add_unmapped_segment` decodes the key; on success it inserts the
decoded key with an empty sequence unconditionally — afterwards the key
maps to `[]` whatever it mapped to before, all other keys unchanged — and
on decode failure the mapping is left exactly as it was. -/
theorem add_unmapped_segment_inserts_empty (decode : Str → Except Unit Str)
    (m : QueryStringMapping) (key : Str) :
    (∀ k, decode key = .ok k →
      (m.add_unmapped_segment decode key).get k = some [] ∧
      ∀ q, q ≠ k → (m.add_unmapped_segment decode key).get q = m.get q) ∧
    (∀ e, decode key = .error e → m.add_unmapped_segment decode key = m) := by
  constructor
  · intro k hk
    constructor
    · simp [QueryStringMapping.add_unmapped_segment, hk,
        QueryStringMapping.get, lookupKey_insertKey_self]
    · intro q hq
      simp [QueryStringMapping.add_unmapped_segment, hk,
        QueryStringMapping.get, lookupKey_insertKey_ne k q hq]
  · intro e he
    simp [QueryStringMapping.add_unmapped_segment, he]

/-- C8, witness: inserting over the existing key `a` erases its stored
value `1`, and a key failing to decode leaves the mapping unchanged. -/
theorem add_unmapped_segment_inserts_empty_witness :
    (QueryStringMapping.add_unmapped_segment okDecode
        ⟨[("a".data, [⟨"1".data⟩])]⟩ "a".data).get "a".data = some [] ∧
    QueryStringMapping.add_unmapped_segment pctFailDecode
        ⟨[("a".data, [⟨"1".data⟩])]⟩ "%".data =
      ⟨[("a".data, [⟨"1".data⟩])]⟩ :=
  ⟨((add_unmapped_segment_inserts_empty okDecode
        ⟨[("a".data, [⟨"1".data⟩])]⟩ "a".data).1 "a".data rfl).1,
   (add_unmapped_segment_inserts_empty pctFailDecode
        ⟨[("a".data, [⟨"1".data⟩])]⟩ "%".data).2 () rfl⟩

theorem foldl_splitStepOpt_eq (decode : Str → Except Unit Str)
    (pairs : List Str) (h : ∀ p ∈ pairs, '=' ∈ p) :
    ∀ acc, pairs.foldl (splitStepOpt decode) (some acc) =
      some (pairs.foldl (splitStep decode) acc) := by
  induction pairs with
  | nil => intro acc; rfl
  | cons p rest ih =>
      intro acc
      have hp : '=' ∈ p := h p (List.mem_cons_self p rest)
      have hs := splitPair_isSome_of_mem p hp
      rw [List.foldl_cons, List.foldl_cons]
      rcases hsp : splitPair p with _ | ⟨kraw, vraw⟩
      · rw [hsp] at hs; simp at hs
      · have hstep : splitStepOpt decode (some acc) p =
            some (splitStep decode acc p) := by
          cases hd : decode kraw <;> simp [splitStepOpt, splitStep, hsp, hd]
        rw [hstep]
        exact ih (fun x hx => h x (List.mem_cons_of_mem p hx)) _

/-- C9: no input drives a panic.  `splitOpt` — `split` with both `unwrap`
calls and the fold made panic-observable — returns `some` of the value of
`split` on every optional query string (every retained pair really has a
key and a value segment), and the literal guarded-index form of the scalar
conversion returns `some` of a `Result` on every key and value sequence
(its `values[0]` access is always in bounds). -/
theorem split_no_panic (decode : Str → Except Unit Str) (q : Option Str)
    {α : Type} (parse : Str → Except Str α) (key : Str)
    (values : List FormUrlDecoded) :
    splitOpt decode q = some (split decode q) ∧
    scalarFromQueryStringOpt parse key values =
      some (scalarFromQueryString parse key values) := by
  constructor
  · cases q with
    | none => rfl
    | some s =>
        have hall : ∀ p ∈ (rustSplit '&' s).filter (fun p => decide ('=' ∈ p)),
            '=' ∈ p := by
          intro p hp
          exact of_decide_eq_true (List.mem_filter.mp hp).2
        simp [splitOpt, split, splitPairs,
          foldl_splitStepOpt_eq decode _ hall []]
  · match values with
    | [] => rfl
    | [v] =>
        cases hpv : parse v.val <;>
          simp [scalarFromQueryStringOpt, scalarFromQueryString, hpv]
    | v₁ :: v₂ :: rest => rfl

/-- C10: an empty (but present) query string, and more generally any input
made only of `&` separators, yields a mapping with no keys: every
candidate pair is the empty string, contains no `=`, and is filtered out
before decoding. -/
theorem split_only_separators_empty (decode : Str → Except Unit Str)
    (s : Str) (h : ∀ c ∈ s, c = '&') :
    split decode (some s) = ⟨[]⟩ := by
  have hfilter : (rustSplit '&' s).filter (fun p => decide ('=' ∈ p)) = [] := by
    rw [List.filter_eq_nil_iff]
    intro t ht
    rw [rustSplitAux_all_sep '&' s h t ht]
    simp
  simp [split, splitPairs, hfilter]

/-- C10, witness: the empty query string and a string of three `&`s. -/
theorem split_only_separators_empty_witness :
    split okDecode (some "".data) = ⟨[]⟩ ∧
    split okDecode (some "&&&".data) = ⟨[]⟩ :=
  ⟨split_only_separators_empty okDecode "".data (by decide),
   split_only_separators_empty okDecode "&&&".data (by decide)⟩

end Gotham
